import Mathlib

/-!  Verification of the yar secret-scanning core (robber/analysis.go).

Strings are modelled as `List Char`, one `Char` per byte.  External
collaborators of the core (the version-control adapter, the regex engine,
the logger and output sink) are modelled as oracle parameters, following
the design document's external-interface contracts.  Components of the
core whose code is not under src/ (the Secret Ledger operations, the
entropy run extraction and flagging) are modelled from the spec and are
marked as such in their doc comments.  -/

namespace Yar

/-- Newline byte used by `strings.Split(diff, "\n")` and `strings.Join(context, "\n")`. -/
def newlineChar : Char := Char.ofNat 10

/-- Go slice expression `l[a:b]` (elements `a` up to `b-1`). -/
def goSlice {α : Type} (l : List α) (a b : Int) : List α :=
  (l.drop a.toNat).take (b - a).toNat

/-- Helper for `goIndex`: position of the first occurrence of `sub` in the second argument. -/
def findOcc (sub : List Char) : List Char → Option Nat
  | [] => if sub <+: ([] : List Char) then some 0 else none
  | c :: t => if sub <+: c :: t then some 0 else (findOcc sub t).map (· + 1)

/-- Go `strings.Index(s, sub)`: byte index of the first occurrence, `-1` when absent. -/
def goIndex (s sub : List Char) : Int :=
  match findOcc sub s with
  | some n => (n : Int)
  | none => -1

/-- Go `strings.Split(s, "\n")`. -/
def splitNL : List Char → List (List Char)
  | [] => [[]]
  | c :: t =>
    if c = newlineChar then [] :: splitNL t
    else
      match splitNL t with
      | [] => [[c]]
      | l :: ls => (c :: l) :: ls

/-- Go `strings.Join(ls, "\n")`. -/
def joinNL : List (List Char) → List Char
  | [] => []
  | [l] => l
  | l :: ls => l ++ newlineChar :: joinNL ls

/-- Helper for `fields`, accumulating the current word in reverse. -/
def fieldsAux : List Char → List Char → List (List Char)
  | [], acc => if acc = [] then [] else [acc.reverse]
  | c :: t, acc =>
    if c.isWhitespace then
      if acc = [] then fieldsAux t [] else acc.reverse :: fieldsAux t []
    else fieldsAux t (c :: acc)

/-- Go `strings.Fields(s)`: split on whitespace, dropping empty fields. -/
def fields (s : List Char) : List (List Char) := fieldsAux s []

/-- Constant `B64chars` from analysis.go. -/
def B64chars : List Char :=
  "ABCDEFGHIJKLMNOPQRSTUVWXYZabcdefghijklmnopqrstuvwxyz0123456789+/=".toList

/-- Constant `Hexchars` from analysis.go. -/
def Hexchars : List Char := "1234567890abcdefABCDEF".toList

/-- Constant `b64Threshold = 4.5` from analysis.go. -/
noncomputable def b64Threshold : ℝ := 4.5

/-- Constant `hexThreshold = 3` from analysis.go. -/
noncomputable def hexThreshold : ℝ := 3

/-- Modelled from the spec: the minimum run length used by `FindValidStrings`
(whose code is not under src/); runs shorter than 20 characters are discarded. -/
def minRunLength : Nat := 20

/-- Helper for `FindValidStrings`, accumulating the current charset run in reverse. -/
def validRuns (charset : List Char) : List Char → List Char → List (List Char)
  | [], acc => if minRunLength ≤ acc.length then [acc.reverse] else []
  | c :: t, acc =>
    if c ∈ charset then validRuns charset t (c :: acc)
    else if minRunLength ≤ acc.length then acc.reverse :: validRuns charset t []
    else validRuns charset t []

/-- Modelled from the spec: `FindValidStrings` (not under src/) extracts the maximal
contiguous runs of characters of `word` belonging to `charset`, discarding runs
shorter than `minRunLength`. -/
def FindValidStrings (word charset : List Char) : List (List Char) :=
  validRuns charset word []

/-- Modelled from the spec: Shannon entropy of a string, over the distribution of its
characters: for each distinct character with relative frequency p, sum `-(p * log2 p)`. -/
noncomputable def shannonEntropy (s : List Char) : ℝ :=
  ∑ c ∈ s.toFinset,
    -(((s.count c : ℝ) / s.length) * Real.logb 2 ((s.count c : ℝ) / s.length))

/-- Modelled from the spec: `PrintEntropyFinding` (not under src/) reports exactly those
extracted runs whose Shannon entropy exceeds the given threshold; `run` ranges over the
runs extracted from the whitespace-split words of the diff. -/
def entropyHit (diff charset : List Char) (t : ℝ) (run : List Char) : Prop :=
  ∃ w ∈ fields diff, run ∈ FindValidStrings w charset ∧ t < shannonEntropy run

/-- Relational form of `AnalyzeEntropyDiff` (analysis.go lines 25-33): a run is reported
when it is a base64 hit against `b64Threshold` or a hex hit against `hexThreshold`. -/
def AnalyzeEntropyDiffHit (diff run : List Char) : Prop :=
  entropyHit diff B64chars b64Threshold run ∨ entropyHit diff Hexchars hexThreshold run

/-- Rule: reason plus the external regex engine's `FindString` oracle; the empty
list encodes Go's empty-string result (no match). -/
structure Rule where
  reason : List Char
  find : List Char → List Char

/-- Flags consumed by the core: context radius, skip-duplicates, entropy, both. -/
structure Flags where
  context : Int
  skipDuplicates : Bool
  entropy : Bool
  both : Bool

/-- DiffObject: one diff text plus commit / repository / file metadata. -/
structure DiffObject where
  commit : Nat
  diff : List Char
  reponame : List Char
  filepath : List Char
deriving DecidableEq

/-- Finding record assembled by `NewFinding`. -/
structure Finding where
  reason : List Char
  secret : List Int
  reponame : List Char
  filepath : List Char
deriving DecidableEq

/-- Events sent to the logger / output sink, in emission order. -/
inductive LogMsg where
  | warnEmpty (repo : List Char)
  | failOpen (repo : List Char)
  | warnCommits (repo : List Char)
  | warnChanges (commit : Nat)
  | warnDiffs (change : Nat)
  | finding (f : Finding) (context : List Char)
deriving DecidableEq

/-- Shared middleware state threaded through the core: the outstanding-work counter
`RepoCount`, the number of sends performed on the `quit` channel, the Secret Ledger,
and the ordered stream of logger / sink events. -/
structure ScanState where
  repoCount : Int
  quits : Nat
  ledger : List (List Char × List Char)
  output : List LogMsg
deriving DecidableEq

/-- Modelled from the spec: `m.SecretExists` (middleware, not under src/) consults the
Secret Ledger for the (repository, secret) pair. -/
def secretExists (ledger : List (List Char × List Char)) (repo secret : List Char) : Bool :=
  decide ((repo, secret) ∈ ledger)

/-- Modelled from the spec: `m.AddSecret` (middleware, not under src/) records the
(repository, secret) pair in the Secret Ledger; recording is idempotent. -/
def addSecret (ledger : List (List Char × List Char)) (repo secret : List Char) :
    List (List Char × List Char) :=
  if (repo, secret) ∈ ledger then ledger else ledger ++ [(repo, secret)]

/-- Context window slice `lines[start:end]` with `start, end` as computed on
analysis.go line 43. -/
def contextOf (lines : List (List Char)) (lineNum ctx : Int) : List (List Char) :=
  goSlice lines (max 0 (lineNum - ctx)) (min (lines.length : Int) (lineNum + ctx + 1))

/-- Joined context `newDiff` (analysis.go line 45). -/
def newDiffOf (lines : List (List Char)) (lineNum ctx : Int) : List Char :=
  joinNL (contextOf lines lineNum ctx)

/-- Span `secret := []int{Index(newDiff, found)}; append(secret, secret[0]+len(found))`
(analysis.go lines 46-47). -/
def matchSpan (newDiff found : List Char) : List Int :=
  [goIndex newDiff found, goIndex newDiff found + found.length]

/-- Extraction `secretString := newDiff[secret[0]:secret[1]]` (analysis.go line 49). -/
def secretStringOf (newDiff found : List Char) : List Char :=
  goSlice newDiff (goIndex newDiff found) (goIndex newDiff found + found.length)

/-- Function `NewFinding` (external assembly, spec section 4.4): pure record construction. -/
def NewFinding (reason : List Char) (secret : List Int) (d : DiffObject) : Finding :=
  ⟨reason, secret, d.reponame, d.filepath⟩

/-- Event `m.Logger.LogFinding(finding, m, newDiff)`. -/
def emitFinding (f : Finding) (newDiff : List Char) (st : ScanState) : ScanState :=
  { st with output := st.output ++ [LogMsg.finding f newDiff] }

/-- Body of the innermost loop of `AnalyzeRegexDiff` (analysis.go lines 42-57): one
(line, rule) pair. -/
def processLineRule (ctx : Int) (skipDup : Bool) (d : DiffObject)
    (lines : List (List Char)) (lineNum : Nat) (line : List Char)
    (st : ScanState) (rule : Rule) : ScanState :=
  let found := rule.find line
  if found = [] then st
  else
    let newDiff := newDiffOf lines lineNum ctx
    let secret := matchSpan newDiff found
    let secretString := secretStringOf newDiff found
    let f := NewFinding rule.reason secret d
    if skipDup && !(secretExists st.ledger d.reponame secretString) then
      emitFinding f newDiff { st with ledger := addSecret st.ledger d.reponame secretString }
    else if !skipDup then
      emitFinding f newDiff st
    else st

/-- Function `AnalyzeRegexDiff` (analysis.go lines 36-61): line by line, rule by rule. -/
def AnalyzeRegexDiff (rules : List Rule) (ctx : Int) (skipDup : Bool)
    (st : ScanState) (d : DiffObject) : ScanState :=
  let lines := splitNL d.diff
  lines.enum.foldl
    (fun st p => rules.foldl (processLineRule ctx skipDup d lines p.1 p.2) st) st

/-- Open failures distinguish `transport.ErrEmptyRemoteRepository` from any other error. -/
inductive OpenErr where
  | emptyRemote
  | other (msg : List Char)
deriving DecidableEq

/-- External version-control adapter: `OpenRepo`, `GetCommits`, `GetCommitChanges`,
`GetDiffs`.  `OpenRepo` returns a repository handle together with an optional error,
as the Go call does; `GetDiffs` returns the list of diff texts and the file path. -/
structure Oracle where
  openRepo : List Char → Nat × Option OpenErr
  getCommits : Nat → Except (List Char) (List Nat)
  getChanges : Nat → Except (List Char) (List Nat)
  getDiffs : Nat → Except (List Char) (List (List Char) × List Char)

/-- How handling one received job ends: `toNext` models `continue` / falling through to
the next iteration of the select loop, `ret` models `return` from `AnalyzeRepo`. -/
inductive JobExit where
  | toNext
  | ret
deriving DecidableEq

/-- Epilogue of a consumed job as run by a single worker without interference
(analysis.go lines 72-75 and 115-118): `atomic.AddInt32(m.RepoCount, -1)` followed by
`if atomic.LoadInt32(m.RepoCount) == 0 { quit <- true }`. -/
def decAndCheck (st : ScanState) : ScanState :=
  { st with
    repoCount := st.repoCount - 1,
    quits := if st.repoCount - 1 = 0 then st.quits + 1 else st.quits }

/-- One change of one commit (analysis.go lines 96-113): fetch its diffs, logging and
skipping the change on failure, otherwise analyzing every diff. -/
def processChange (analyze : ScanState → DiffObject → ScanState) (O : Oracle)
    (reponame : List Char) (commit : Nat) (st : ScanState) (change : Nat) : ScanState :=
  match O.getDiffs change with
  | Except.error _ => { st with output := st.output ++ [LogMsg.warnDiffs change] }
  | Except.ok (diffs, filepath) =>
      diffs.foldl (fun st diff => analyze st ⟨commit, diff, reponame, filepath⟩) st

/-- One commit (analysis.go lines 90-114): enumerate its changes, logging and skipping
the commit on failure, otherwise processing every change in adapter order. -/
def processCommit (analyze : ScanState → DiffObject → ScanState) (O : Oracle)
    (reponame : List Char) (st : ScanState) (commit : Nat) : ScanState :=
  match O.getChanges commit with
  | Except.error _ => { st with output := st.output ++ [LogMsg.warnChanges commit] }
  | Except.ok changes => changes.foldl (processChange analyze O reponame commit) st

/-- History traversal loop of `AnalyzeRepo` (analysis.go lines 87-114):
`for index := range commits { commit := commits[len(commits)-index-1]; ... }`. -/
def traverse (analyze : ScanState → DiffObject → ScanState) (O : Oracle)
    (reponame : List Char) (commits : List Nat) (st : ScanState) : ScanState :=
  (List.range commits.length).foldl
    (fun st index =>
      processCommit analyze O reponame st (commits.getD (commits.length - index - 1) 0))
    st

/-- Detector-mode selection (analysis.go lines 104-111): both, entropy-only, or
regex-only.  The entropy analyzer is passed as an oracle since its reporting side is
not under src/. -/
def analyzeDiffObject (rules : List Rule)
    (entropyA : ScanState → DiffObject → ScanState) (fl : Flags)
    (st : ScanState) (d : DiffObject) : ScanState :=
  if fl.both then entropyA (AnalyzeRegexDiff rules fl.context fl.skipDuplicates st d) d
  else if fl.entropy then entropyA st d
  else AnalyzeRegexDiff rules fl.context fl.skipDuplicates st d

/-- Code from `GetCommits` onwards (analysis.go lines 81-118): on a commit-enumeration
failure the warning is logged and the worker returns; otherwise the history is
traversed and the epilogue decrement runs. -/
def analyzeOpened (rules : List Rule) (entropyA : ScanState → DiffObject → ScanState)
    (fl : Flags) (O : Oracle) (reponame : List Char) (repo : Nat) (st : ScanState) :
    ScanState × JobExit :=
  match O.getCommits repo with
  | Except.error _ =>
      ({ st with output := st.output ++ [LogMsg.warnCommits reponame] }, JobExit.ret)
  | Except.ok commits =>
      (decAndCheck (traverse (analyzeDiffObject rules entropyA fl) O reponame commits st),
       JobExit.toNext)

/-- Handling of one job received from `repoch` by `AnalyzeRepo` (analysis.go lines
67-118).  An empty-repository error logs, decrements and continues; any other open
error logs the failure and falls through to `GetCommits` on the returned handle. -/
def analyzeRepoJob (rules : List Rule) (entropyA : ScanState → DiffObject → ScanState)
    (fl : Flags) (O : Oracle) (reponame : List Char) (st : ScanState) :
    ScanState × JobExit :=
  match (O.openRepo reponame).2 with
  | some OpenErr.emptyRemote =>
      (decAndCheck { st with output := st.output ++ [LogMsg.warnEmpty reponame] },
       JobExit.toNext)
  | some (OpenErr.other _) =>
      analyzeOpened rules entropyA fl O reponame (O.openRepo reponame).1
        { st with output := st.output ++ [LogMsg.failOpen reponame] }
  | none =>
      analyzeOpened rules entropyA fl O reponame (O.openRepo reponame).1 st

/-- State of one worker in the completion-protocol model: the number of jobs it will
still complete, and whether it sits between the atomic decrement and the atomic load
of the epilogue. -/
structure WorkerSt where
  pending : Nat
  midEpilogue : Bool
deriving DecidableEq

/-- State of the worker pool sharing `RepoCount` and the `quit` channel. -/
structure PoolSt where
  repoCount : Int
  quitSends : Nat
  workers : List WorkerSt
deriving DecidableEq

/-- One atomic step of a worker's epilogue: either the `atomic.AddInt32(m.RepoCount,-1)`
or the subsequent `atomic.LoadInt32` with the conditional send on `quit`. -/
def workerStep (c : Int) (q : Nat) (w : WorkerSt) : Int × Nat × WorkerSt :=
  if w.midEpilogue then (c, (if c = 0 then q + 1 else q, ⟨w.pending - 1, false⟩))
  else if 0 < w.pending then (c - 1, (q, ⟨w.pending, true⟩))
  else (c, (q, w))

/-- Scheduler step: run one atomic step of worker `i` (out-of-range indices are no-ops). -/
def poolStep (st : PoolSt) (i : Nat) : PoolSt :=
  match st.workers[i]? with
  | none => st
  | some w =>
      let r := workerStep st.repoCount st.quitSends w
      { repoCount := r.1, quitSends := r.2.1, workers := st.workers.set i r.2.2 }

/-- Interleaved execution of the pool under an explicit schedule of worker indices. -/
def poolRun (st : PoolSt) (sched : List Nat) : PoolSt :=
  sched.foldl poolStep st

/-- Entropy analyzer stand-in used to instantiate worker evaluations whose flags never
route a diff to the entropy detector. -/
def entropyNoop : ScanState → DiffObject → ScanState := fun st _ => st

/-- Flag assignment with context radius 2, regex-only detection, no deduplication. -/
def flagsRegexOnly : Flags := ⟨2, false, false, false⟩

/-- Oracle under which opening succeeds and commit enumeration fails. -/
def oracleCommitsFail : Oracle :=
  ⟨fun _ => (0, none), fun _ => Except.error "boom".toList,
   fun _ => Except.ok [], fun _ => Except.ok ([], [])⟩

/-- Rule whose regex oracle matches exactly the full line `Token: x`. -/
def ruleToken : Rule :=
  ⟨"token".toList, fun line => if line = "Token: x".toList then "Token: x".toList else []⟩

/-- Oracle under which opening fails with a non-empty-repository error, yet commit
enumeration on the returned handle succeeds with one commit, one change, one diff. -/
def oracleOpenFails : Oracle :=
  ⟨fun _ => (7, some (OpenErr.other "denied".toList)),
   fun _ => Except.ok [1], fun _ => Except.ok [5],
   fun _ => Except.ok (["Token: x".toList], "f".toList)⟩

/-- Initial middleware state for the single-worker evaluations: two outstanding jobs. -/
def stInit : ScanState := ⟨2, 0, [], []⟩

/-- C1: refuted on the code.  On the commit-enumeration-failure path of `AnalyzeRepo`
the worker logs the warning and returns without decrementing `RepoCount` at all, so
this control path does not decrement the outstanding-work counter exactly once as the
claim states — the repository never counts as done. -/
theorem C1_commitsFailure_no_decrement :
    (analyzeRepoJob [] entropyNoop flagsRegexOnly oracleCommitsFail
        "r".toList stInit).1.repoCount = stInit.repoCount ∧
    (analyzeRepoJob [] entropyNoop flagsRegexOnly oracleCommitsFail
        "r".toList stInit).1.quits = 0 ∧
    (analyzeRepoJob [] entropyNoop flagsRegexOnly oracleCommitsFail
        "r".toList stInit).2 = JobExit.ret := by
  decide

/-- C2: refuted on the code.  With two workers and two enqueued jobs, the interleaving
in which both workers run the atomic decrement of `RepoCount` before either runs the
separate atomic load makes both observe zero, so the completion signal is sent on the
quit channel twice, not exactly once. -/
theorem C2_quit_sent_twice :
    (poolRun ⟨2, 0, [⟨1, false⟩, ⟨1, false⟩]⟩ [0, 1, 0, 1]).quitSends = 2 ∧
    (poolRun ⟨2, 0, [⟨1, false⟩, ⟨1, false⟩]⟩ [0, 1, 0, 1]).repoCount = 0 := by
  decide

/-- C3: refuted on the code.  When opening fails with an error other than the
empty-repository error, the worker logs the failure but falls through to `GetCommits`
instead of returning to wait for the next job: here commit enumeration on the returned
handle succeeds, the repository is traversed and a Finding is produced for it. -/
theorem C3_traversal_after_open_failure :
    (analyzeRepoJob [ruleToken] entropyNoop flagsRegexOnly oracleOpenFails
        "r".toList stInit).1.output
      = [LogMsg.failOpen "r".toList,
         LogMsg.finding ⟨"token".toList, [0, 8], "r".toList, "f".toList⟩
           "Token: x".toList] ∧
    (analyzeRepoJob [ruleToken] entropyNoop flagsRegexOnly oracleOpenFails
        "r".toList stInit).1.repoCount = 1 ∧
    (analyzeRepoJob [ruleToken] entropyNoop flagsRegexOnly oracleOpenFails
        "r".toList stInit).2 = JobExit.toNext := by
  decide

/-- Length of a Go slice within bounds. -/
lemma goSlice_length {α : Type} (l : List α) (a b : Int)
    (ha : 0 ≤ a) (_hab : a ≤ b) (hb : b ≤ l.length) :
    (goSlice l a b).length = (b - a).toNat := by
  simp only [goSlice, List.length_take, List.length_drop]
  omega

/-- Elements of a Go slice within bounds come from the stated index range. -/
lemma goSlice_getD {α : Type} (l : List α) (a b : Int) (d : α) (k : Nat)
    (ha : 0 ≤ a) (hk : k < (b - a).toNat) (hb : b ≤ l.length) :
    a.toNat + k < l.length ∧ (goSlice l a b).getD k d = l.getD (a.toNat + k) d := by
  refine ⟨by omega, ?_⟩
  simp only [goSlice, List.getD_eq_getElem?_getD, List.getElem?_take, hk, if_true,
    List.getElem?_drop]

/-- A successful `findOcc` returns an occurrence, and the first one. -/
lemma findOcc_some_occurrence (sub : List Char) :
    ∀ (s : List Char) (n : Nat), findOcc sub s = some n →
      sub <+: s.drop n ∧ ∀ m, m < n → ¬ sub <+: s.drop m := by
  intro s
  induction s with
  | nil =>
      intro n h
      simp only [findOcc] at h
      split at h
      · cases h
        exact ⟨by simpa using ‹sub <+: ([] : List Char)›, by omega⟩
      · cases h
  | cons c t ih =>
      intro n h
      simp only [findOcc] at h
      split at h
      · cases h
        exact ⟨by simpa using ‹sub <+: c :: t›, by omega⟩
      · rename_i hp
        obtain ⟨n', hn', rfl⟩ : ∃ n', findOcc sub t = some n' ∧ n = n' + 1 := by
          cases hfo : findOcc sub t with
          | none => rw [hfo] at h; cases h
          | some m => rw [hfo] at h; cases h; exact ⟨m, rfl, rfl⟩
        obtain ⟨hocc, hleast⟩ := ih n' hn'
        refine ⟨by simpa using hocc, ?_⟩
        intro m hm
        cases m with
        | zero => simpa using hp
        | succ m' =>
            rw [List.drop_succ_cons]
            exact hleast m' (by omega)

/-- When `sub` occurs somewhere in `s`, `findOcc` finds an occurrence. -/
lemma findOcc_of_found (sub : List Char) :
    ∀ (s : List Char) (m : Nat), sub <+: s.drop m → ∃ n, findOcc sub s = some n := by
  intro s
  induction s with
  | nil =>
      intro m h
      rw [List.drop_nil] at h
      exact ⟨0, by simp [findOcc, h]⟩
  | cons c t ih =>
      intro m h
      by_cases hp : sub <+: c :: t
      · exact ⟨0, by simp [findOcc, hp]⟩
      · cases m with
        | zero => exact absurd (by simpa using h) hp
        | succ m' =>
            rw [List.drop_succ_cons] at h
            obtain ⟨n, hn⟩ := ih m' h
            exact ⟨n + 1, by simp [findOcc, hp, hn]⟩

/-- An occurrence as a contiguous substring yields an occurrence at some drop offset. -/
lemma exists_drop_of_isInfix {sub s : List Char} (h : sub <:+: s) :
    ∃ m, sub <+: s.drop m := by
  obtain ⟨t1, t2, rfl⟩ := h
  refine ⟨t1.length, ?_⟩
  rw [List.append_assoc, List.drop_left]
  exact ⟨t2, rfl⟩

/-- Every member line of a joined list occurs contiguously in the join. -/
lemma isInfix_joinNL : ∀ {ls : List (List Char)} {l : List Char},
    l ∈ ls → l <:+: joinNL ls := by
  intro ls
  induction ls with
  | nil => intro l h; cases h
  | cons x xs ih =>
      intro l h
      cases h with
      | head =>
          cases xs with
          | nil => exact ⟨[], [], by simp [joinNL]⟩
          | cons y ys => exact ⟨[], newlineChar :: joinNL (y :: ys), by simp [joinNL]⟩
      | tail _ hmem =>
          cases xs with
          | nil => cases hmem
          | cons y ys =>
              have h1 : l <:+: joinNL (y :: ys) := ih hmem
              have h2 : joinNL (y :: ys) <:+: joinNL (x :: y :: ys) :=
                ⟨x ++ [newlineChar], [], by simp [joinNL]⟩
              exact h1.trans h2

/-- The line on which the match was found lies inside its own context window. -/
lemma line_mem_contextOf (lines : List (List Char)) (i : Nat) (r : Int)
    (hr : 0 ≤ r) (hi : i < lines.length) :
    lines.getD i [] ∈ contextOf lines i r := by
  have ha : (0 : Int) ≤ max 0 ((i : Int) - r) := le_max_left _ _
  have hai : max 0 ((i : Int) - r) ≤ (i : Int) :=
    max_le (Int.ofNat_nonneg i) (by linarith)
  have hib : (i : Int) < min (lines.length : Int) ((i : Int) + r + 1) :=
    lt_min (by exact_mod_cast hi) (by linarith)
  have hbl : min (lines.length : Int) ((i : Int) + r + 1) ≤ (lines.length : Int) :=
    min_le_left _ _
  have hlen : (contextOf lines i r).length
      = (min (lines.length : Int) ((i : Int) + r + 1) - max 0 ((i : Int) - r)).toNat :=
    goSlice_length lines _ _ ha (by omega) hbl
  have hk : i - (max 0 ((i : Int) - r)).toNat
      < (min (lines.length : Int) ((i : Int) + r + 1) - max 0 ((i : Int) - r)).toNat := by
    omega
  obtain ⟨-, hgd⟩ := goSlice_getD lines (max 0 ((i : Int) - r))
    (min (lines.length : Int) ((i : Int) + r + 1)) ([] : List Char)
    (i - (max 0 ((i : Int) - r)).toNat) ha hk hbl
  have hidx : (max 0 ((i : Int) - r)).toNat + (i - (max 0 ((i : Int) - r)).toNat) = i := by
    omega
  rw [hidx] at hgd
  have hklen : i - (max 0 ((i : Int) - r)).toNat < (contextOf lines i r).length := by
    rw [hlen]; exact hk
  have hgd2 : (contextOf lines i r).getD (i - (max 0 ((i : Int) - r)).toNat) [] = lines.getD i [] := hgd
  rw [← hgd2, List.getD_eq_getElem _ _ hklen]
  exact List.getElem_mem hklen

/-- A regex match on a window line occurs contiguously in the joined context. -/
lemma found_isInfix_newDiffOf (lines : List (List Char)) (i : Nat) (r : Int)
    (found : List Char) (hr : 0 ≤ r) (hi : i < lines.length)
    (hfound : found <:+: lines.getD i []) :
    found <:+: newDiffOf lines i r :=
  hfound.trans (isInfix_joinNL (line_mem_contextOf lines i r hr hi))

/-- C5: confirmed.  For a diff of N lines, a match on line i and context radius r ≥ 0,
the context window computed by `AnalyzeRegexDiff` spans exactly the line range
[max(0, i−r), min(N, i+r+1)): its bounds satisfy 0 ≤ start ≤ end ≤ N, its length is
end − start, and its k-th line is line start+k of the diff, an index inside [0, N). -/
theorem C5_context_window_bounds (lines : List (List Char)) (i : Nat) (r : Int)
    (dflt : List Char) (hr : 0 ≤ r) (hi : i < lines.length) :
    0 ≤ max 0 ((i : Int) - r) ∧
    max 0 ((i : Int) - r) ≤ min (lines.length : Int) ((i : Int) + r + 1) ∧
    min (lines.length : Int) ((i : Int) + r + 1) ≤ (lines.length : Int) ∧
    (contextOf lines i r).length
      = (min (lines.length : Int) ((i : Int) + r + 1) - max 0 ((i : Int) - r)).toNat ∧
    ∀ k, k < (contextOf lines i r).length →
      (max 0 ((i : Int) - r)).toNat + k < lines.length ∧
      (contextOf lines i r).getD k dflt
        = lines.getD ((max 0 ((i : Int) - r)).toNat + k) dflt := by
  have ha : (0 : Int) ≤ max 0 ((i : Int) - r) := le_max_left _ _
  have hai : max 0 ((i : Int) - r) ≤ (i : Int) :=
    max_le (Int.ofNat_nonneg i) (by linarith)
  have hib : (i : Int) < min (lines.length : Int) ((i : Int) + r + 1) :=
    lt_min (by exact_mod_cast hi) (by linarith)
  have hbl : min (lines.length : Int) ((i : Int) + r + 1) ≤ (lines.length : Int) :=
    min_le_left _ _
  have hlen : (contextOf lines i r).length
      = (min (lines.length : Int) ((i : Int) + r + 1) - max 0 ((i : Int) - r)).toNat :=
    goSlice_length lines _ _ ha (by omega) hbl
  refine ⟨ha, by omega, hbl, hlen, ?_⟩
  intro k hk
  rw [hlen] at hk
  exact goSlice_getD lines _ _ dflt k ha hk hbl

/-- Witness for C5 at lines = [a, b, c], i = 1, r = 1, k = 0: the window's first line
is line max(0, 1−1) = 0 of the diff. -/
theorem C5_context_window_bounds_witness :
    (max 0 (((1 : Nat) : Int) - 1)).toNat + 0 < [['a'], ['b'], ['c']].length ∧
    (contextOf [['a'], ['b'], ['c']] ((1 : Nat) : Int) 1).getD 0 []
      = [['a'], ['b'], ['c']].getD ((max 0 (((1 : Nat) : Int) - 1)).toNat + 0) [] :=
  (C5_context_window_bounds [['a'], ['b'], ['c']] 1 1 [] (by decide) (by decide)).2.2.2.2
    0 (by decide)

/-- C6: confirmed.  For a regex match `found` on window line i, the span recorded by
`AnalyzeRegexDiff` is [s, s + len(found)) where s is the index of the first occurrence
of `found` in the joined context: `found` occurs at offset s of the context and at no
smaller offset (the search starts from the beginning of the context, not from the
originating line). -/
theorem C6_span_first_occurrence (lines : List (List Char)) (i : Nat) (r : Int)
    (found : List Char) (hr : 0 ≤ r) (hi : i < lines.length) (_hne : found ≠ [])
    (hfound : found <:+: lines.getD i []) :
    ∃ s : Nat, goIndex (newDiffOf lines i r) found = (s : Int) ∧
      matchSpan (newDiffOf lines i r) found
        = [(s : Int), (s : Int) + (found.length : Int)] ∧
      found <+: (newDiffOf lines i r).drop s ∧
      ∀ t, t < s → ¬ found <+: (newDiffOf lines i r).drop t := by
  have hinf := found_isInfix_newDiffOf lines i r found hr hi hfound
  obtain ⟨m, hm⟩ := exists_drop_of_isInfix hinf
  obtain ⟨n, hn⟩ := findOcc_of_found found _ m hm
  obtain ⟨hocc, hleast⟩ := findOcc_some_occurrence found _ n hn
  refine ⟨n, by simp [goIndex, hn], by simp [matchSpan, goIndex, hn], hocc, hleast⟩

/-- Witness for C6 at lines = [ab, ab], i = 1, r = 1: the matched text recurs on the
earlier window line, and the recorded span anchors at offset 0, the first occurrence. -/
theorem C6_span_first_occurrence_witness :
    goIndex (newDiffOf [['a', 'b'], ['a', 'b']] ((1 : Nat) : Int) 1) ['a', 'b']
      = (((0 : Nat)) : Int) ∧
    matchSpan (newDiffOf [['a', 'b'], ['a', 'b']] ((1 : Nat) : Int) 1) ['a', 'b']
      = [(((0 : Nat)) : Int), (((0 : Nat)) : Int) + ((['a', 'b'] : List Char).length : Int)] := by
  obtain ⟨s, h1, h2, h3, h4⟩ :=
    C6_span_first_occurrence [['a', 'b'], ['a', 'b']] 1 1 ['a', 'b']
      (by decide) (by decide) (by decide) ⟨[], [], by decide⟩
  have hs : s = 0 := by
    have h0 : goIndex (newDiffOf [['a', 'b'], ['a', 'b']] ((1 : Nat) : Int) 1) ['a', 'b']
        = ((0 : Nat) : Int) := by decide
    rw [h1] at h0
    exact_mod_cast h0
  subst hs
  exact ⟨h1, h2⟩

/-- C10: confirmed.  The extracted `secretString` — the slice of the joined context at
the recorded span — always equals the regex-matched text, character for character,
because the span is anchored at an occurrence of that exact text. -/
theorem C10_secretString_equals_match (lines : List (List Char)) (i : Nat) (r : Int)
    (found : List Char) (hr : 0 ≤ r) (hi : i < lines.length) (_hne : found ≠ [])
    (hfound : found <:+: lines.getD i []) :
    secretStringOf (newDiffOf lines i r) found = found := by
  have hinf := found_isInfix_newDiffOf lines i r found hr hi hfound
  obtain ⟨m, hm⟩ := exists_drop_of_isInfix hinf
  obtain ⟨n, hn⟩ := findOcc_of_found found _ m hm
  obtain ⟨hocc, -⟩ := findOcc_some_occurrence found _ n hn
  obtain ⟨t, ht⟩ := hocc
  have harith : ((n : Int) + (found.length : Int) - (n : Int)) = (found.length : Int) := by
    ring
  simp only [secretStringOf, goIndex, hn, goSlice, harith, Int.toNat_natCast]
  rw [← ht, List.take_left]

/-- Witness for C10 at lines = [ab, ab], i = 1, r = 1: the extracted secret string is
exactly the matched text even though it occurs twice in the window. -/
theorem C10_secretString_equals_match_witness :
    secretStringOf (newDiffOf [['a', 'b'], ['a', 'b']] ((1 : Nat) : Int) 1) ['a', 'b']
      = ['a', 'b'] :=
  C10_secretString_equals_match [['a', 'b'], ['a', 'b']] 1 1 ['a', 'b']
    (by decide) (by decide) (by decide) ⟨[], [], by decide⟩

/-- Recording a pair makes it present in the Secret Ledger. -/
lemma secretExists_addSecret (L : List (List Char × List Char)) (repo secret : List Char) :
    secretExists (addSecret L repo secret) repo secret = true := by
  by_cases h : (repo, secret) ∈ L <;> simp [secretExists, addSecret, h]

/-- C4: confirmed.  For every regex match: with skip-duplicates active and the
(repository, matched substring) pair absent from the Secret Ledger, the pair is
recorded and the Finding emitted; with the pair present, the Finding is suppressed and
the state unchanged; with skip-duplicates inactive, the Finding is always emitted and
the Secret Ledger untouched. -/
theorem C4_dedup_behaviour (ctx : Int) (skipDup : Bool) (d : DiffObject)
    (lines : List (List Char)) (lineNum : Nat) (line : List Char)
    (st : ScanState) (rule : Rule) (hne : rule.find line ≠ []) :
    (skipDup = true →
      secretExists st.ledger d.reponame
          (secretStringOf (newDiffOf lines lineNum ctx) (rule.find line)) = false →
      processLineRule ctx skipDup d lines lineNum line st rule
        = { st with
            ledger := addSecret st.ledger d.reponame
                (secretStringOf (newDiffOf lines lineNum ctx) (rule.find line)),
            output := st.output ++
              [LogMsg.finding
                (NewFinding rule.reason
                  (matchSpan (newDiffOf lines lineNum ctx) (rule.find line)) d)
                (newDiffOf lines lineNum ctx)] } ∧
      secretExists (processLineRule ctx skipDup d lines lineNum line st rule).ledger
          d.reponame
          (secretStringOf (newDiffOf lines lineNum ctx) (rule.find line)) = true) ∧
    (skipDup = true →
      secretExists st.ledger d.reponame
          (secretStringOf (newDiffOf lines lineNum ctx) (rule.find line)) = true →
      processLineRule ctx skipDup d lines lineNum line st rule = st) ∧
    (skipDup = false →
      processLineRule ctx skipDup d lines lineNum line st rule
        = { st with
            output := st.output ++
              [LogMsg.finding
                (NewFinding rule.reason
                  (matchSpan (newDiffOf lines lineNum ctx) (rule.find line)) d)
                (newDiffOf lines lineNum ctx)] }) := by
  refine ⟨?_, ?_, ?_⟩
  · intro hs habsent
    subst hs
    constructor
    · simp [processLineRule, hne, habsent, emitFinding]
    · simp only [processLineRule, hne, if_neg hne, habsent, Bool.true_and,
        Bool.not_false, emitFinding]
      simp [secretExists_addSecret]
  · intro hs hpresent
    subst hs
    simp [processLineRule, hne, hpresent]
  · intro hs
    subst hs
    simp [processLineRule, hne, emitFinding]

/-- DiffObject used in the C4 witness evaluation. -/
def diffW : DiffObject := ⟨1, "Token: x".toList, "r".toList, "f".toList⟩

/-- Witness for C4 with skip-duplicates inactive: the Finding is emitted and the
ledger left untouched. -/
theorem C4_dedup_behaviour_witness :
    processLineRule 2 false diffW ["Token: x".toList] 0 "Token: x".toList stInit ruleToken
      = { stInit with
          output := stInit.output ++
            [LogMsg.finding
              (NewFinding ruleToken.reason
                (matchSpan (newDiffOf ["Token: x".toList] 0 2)
                  (ruleToken.find "Token: x".toList)) diffW)
              (newDiffOf ["Token: x".toList] 0 2)] } :=
  (C4_dedup_behaviour 2 false diffW ["Token: x".toList] 0 "Token: x".toList stInit
    ruleToken (by decide)).2.2 rfl

/-- Index-reversing iteration over a list equals a fold over its reversal. -/
lemma range_foldl_reverse {α β : Type} (l : List α) (d : α) (g : β → α → β) (st : β) :
    (List.range l.length).foldl (fun s i => g s (l.getD (l.length - i - 1) d)) st
      = l.reverse.foldl g st := by
  have hmap : (List.range l.length).map (fun i => l.getD (l.length - i - 1) d)
      = l.reverse := by
    apply List.ext_getElem
    · simp
    · intro i h1 h2
      simp only [List.getElem_map, List.getElem_range, List.getElem_reverse]
      rw [List.getD_eq_getElem]
      · congr 1
        simp only [List.length_map, List.length_range] at h1
        omega
      · simp only [List.length_map, List.length_range] at h1
        omega
  calc (List.range l.length).foldl (fun s i => g s (l.getD (l.length - i - 1) d)) st
      = ((List.range l.length).map (fun i => l.getD (l.length - i - 1) d)).foldl g st := by
        rw [List.foldl_map]
    _ = l.reverse.foldl g st := by rw [hmap]

/-- C7: confirmed.  Given the adapter's newest-first commit list, the traversal loop of
`AnalyzeRepo` processes the commits in exactly the reversed, oldest-to-newest order,
and processes the changes of each successfully enumerated commit in the order the
adapter reports them. -/
theorem C7_commits_processed_reversed (analyze : ScanState → DiffObject → ScanState)
    (O : Oracle) (reponame : List Char) (commits : List Nat) (st : ScanState) :
    traverse analyze O reponame commits st
      = commits.reverse.foldl (processCommit analyze O reponame) st ∧
    ∀ (c : Nat) (changes : List Nat) (st' : ScanState),
      O.getChanges c = Except.ok changes →
      processCommit analyze O reponame st' c
        = changes.foldl (processChange analyze O reponame c) st' := by
  constructor
  · exact range_foldl_reverse commits 0 (processCommit analyze O reponame) st
  · intro c changes st' h
    simp [processCommit, h]

/-- Witness for C7 on a two-commit repository under `oracleOpenFails`. -/
theorem C7_commits_processed_reversed_witness :
    traverse (analyzeDiffObject [] entropyNoop flagsRegexOnly) oracleOpenFails
        "r".toList [1, 2] stInit
      = [1, 2].reverse.foldl
          (processCommit (analyzeDiffObject [] entropyNoop flagsRegexOnly)
            oracleOpenFails "r".toList) stInit ∧
    processCommit (analyzeDiffObject [] entropyNoop flagsRegexOnly) oracleOpenFails
        "r".toList stInit 1
      = [5].foldl
          (processChange (analyzeDiffObject [] entropyNoop flagsRegexOnly)
            oracleOpenFails "r".toList 1) stInit := by
  have h := C7_commits_processed_reversed (analyzeDiffObject [] entropyNoop flagsRegexOnly)
    oracleOpenFails "r".toList [1, 2] stInit
  exact ⟨h.1, h.2 1 [5] stInit rfl⟩

/-- C9: confirmed.  A failure to enumerate one commit's changes contributes exactly its
warning log and skips only that commit; a failure to obtain one change's diffs
contributes exactly its warning log and skips only that change; and the traversal of a
commit list containing a failing commit still processes every other commit, in order. -/
theorem C9_local_failure_skips_only_unit
    (analyze : ScanState → DiffObject → ScanState) (O : Oracle) (reponame : List Char)
    (c ch commit : Nat) (e e' : List Char)
    (hc : O.getChanges c = Except.error e) (hch : O.getDiffs ch = Except.error e')
    (st st' st'' : ScanState) (cs1 cs2 : List Nat) :
    processCommit analyze O reponame st c
      = { st with output := st.output ++ [LogMsg.warnChanges c] } ∧
    processChange analyze O reponame commit st' ch
      = { st' with output := st'.output ++ [LogMsg.warnDiffs ch] } ∧
    traverse analyze O reponame (cs1 ++ c :: cs2) st''
      = cs1.reverse.foldl (processCommit analyze O reponame)
          (processCommit analyze O reponame
            (cs2.reverse.foldl (processCommit analyze O reponame) st'') c) := by
  refine ⟨by simp [processCommit, hc], by simp [processChange, hch], ?_⟩
  have h := range_foldl_reverse (cs1 ++ c :: cs2) 0
    (processCommit analyze O reponame) st''
  calc traverse analyze O reponame (cs1 ++ c :: cs2) st''
      = (cs1 ++ c :: cs2).reverse.foldl (processCommit analyze O reponame) st'' := h
    _ = cs1.reverse.foldl (processCommit analyze O reponame)
          (processCommit analyze O reponame
            (cs2.reverse.foldl (processCommit analyze O reponame) st'') c) := by
        simp [List.reverse_append, List.foldl_append]

/-- Oracle with one failing commit (5) and one failing change (9). -/
def oracleLocalFail : Oracle :=
  ⟨fun _ => (0, none), fun _ => Except.ok [],
   fun cnum => if cnum = 5 then Except.error "x".toList else Except.ok [],
   fun chg => if chg = 9 then Except.error "y".toList else Except.ok ([], [])⟩

/-- Witness for C9 under `oracleLocalFail`: commit 5 fails, change 9 fails, and the
traversal of [3, 5, 4] still processes commits 4 and 3 around the failure. -/
theorem C9_local_failure_skips_only_unit_witness :
    processCommit (analyzeDiffObject [] entropyNoop flagsRegexOnly) oracleLocalFail
        "r".toList stInit 5
      = { stInit with output := stInit.output ++ [LogMsg.warnChanges 5] } ∧
    processChange (analyzeDiffObject [] entropyNoop flagsRegexOnly) oracleLocalFail
        "r".toList 1 stInit 9
      = { stInit with output := stInit.output ++ [LogMsg.warnDiffs 9] } ∧
    traverse (analyzeDiffObject [] entropyNoop flagsRegexOnly) oracleLocalFail
        "r".toList ([3] ++ 5 :: [4]) stInit
      = [3].reverse.foldl
          (processCommit (analyzeDiffObject [] entropyNoop flagsRegexOnly)
            oracleLocalFail "r".toList)
          (processCommit (analyzeDiffObject [] entropyNoop flagsRegexOnly)
            oracleLocalFail "r".toList
            ([4].reverse.foldl
              (processCommit (analyzeDiffObject [] entropyNoop flagsRegexOnly)
                oracleLocalFail "r".toList) stInit) 5) :=
  C9_local_failure_skips_only_unit (analyzeDiffObject [] entropyNoop flagsRegexOnly)
    oracleLocalFail "r".toList 5 9 1 "x".toList "y".toList rfl rfl
    stInit stInit stInit [3] [4]

/-- Every character of a duplicate-free list has count one. -/
lemma count_eq_one_of_nodup {s : List Char} (hnd : s.Nodup) {c : Char} (hc : c ∈ s) :
    s.count c = 1 := by
  have h1 : s.count c ≤ 1 := List.nodup_iff_count_le_one.mp hnd c
  have h2 : 0 < s.count c := List.count_pos_iff.mpr hc
  omega

/-- Shannon entropy of a duplicate-free string is the base-2 log of its length. -/
lemma shannonEntropy_nodup (s : List Char) (hne : s ≠ []) (hnd : s.Nodup) :
    shannonEntropy s = Real.logb 2 s.length := by
  have hlen : s.length ≠ 0 := by simpa using hne
  have hn : (s.length : ℝ) ≠ 0 := Nat.cast_ne_zero.mpr hlen
  have hcard : s.toFinset.card = s.length := List.toFinset_card_of_nodup hnd
  have hterm : ∀ c ∈ s.toFinset,
      -(((s.count c : ℝ) / s.length) * Real.logb 2 ((s.count c : ℝ) / s.length))
        = Real.logb 2 s.length / s.length := by
    intro c hc
    rw [count_eq_one_of_nodup hnd (List.mem_toFinset.mp hc)]
    push_cast
    rw [one_div, Real.logb_inv]
    ring
  rw [shannonEntropy, Finset.sum_congr rfl hterm, Finset.sum_const, hcard, nsmul_eq_mul]
  field_simp

/-- Shannon entropy of a repeated single character is zero. -/
lemma shannonEntropy_replicate (n : Nat) (hn : n ≠ 0) (c : Char) :
    shannonEntropy (List.replicate n c) = 0 := by
  have htf : (List.replicate n c).toFinset = {c} := by
    ext a
    simp [List.mem_replicate, hn]
  have hn' : (n : ℝ) ≠ 0 := Nat.cast_ne_zero.mpr hn
  rw [shannonEntropy, htf, Finset.sum_singleton, List.count_replicate_self,
    List.length_replicate, div_self hn', Real.logb_one]
  ring

/-- Log base 2 of 32 is 5. -/
lemma logb_two_thirtytwo : Real.logb 2 32 = 5 := by
  have h32 : (32 : ℝ) = 2 ^ (5 : ℕ) := by norm_num
  have h2 : Real.log 2 ≠ 0 := ne_of_gt (Real.log_pos (by norm_num))
  simp only [Real.logb]
  rw [h32, Real.log_pow]
  field_simp

/-- Log base 2 of 20 is below 4.5 (as 20 squared is below 2 to the 9th). -/
lemma logb_two_twenty_lt : Real.logb 2 20 < 4.5 := by
  have hlog2 : 0 < Real.log 2 := Real.log_pos (by norm_num)
  have h : Real.log 400 < Real.log 512 := Real.log_lt_log (by norm_num) (by norm_num)
  have h400 : (400 : ℝ) = 20 ^ (2 : ℕ) := by norm_num
  have h512 : (512 : ℝ) = 2 ^ (9 : ℕ) := by norm_num
  rw [h400, h512, Real.log_pow, Real.log_pow] at h
  push_cast at h
  simp only [Real.logb]
  rw [div_lt_iff₀ hlog2]
  linarith

/-- Run of the 20 base64-alphabet characters A to T: one possible draw of 20 uniformly
random characters from the 64-character alphabet. -/
def str20 : List Char := "ABCDEFGHIJKLMNOPQRST".toList

/-- Run of 32 distinct base64-alphabet characters. -/
def str32 : List Char := "ABCDEFGHIJKLMNOPQRSTUVWXYZabcdef".toList

/-- C8: counterexample.  The run of the 20 base64-alphabet characters A to T — a
possible draw of 20 uniformly random characters from the 64-character alphabet — is
extracted by the entropy detector but is not flagged: its Shannon entropy is
log2 20 < 4.5.  This refutes the claim that every run of 20 or more uniformly random
base64-alphabet characters is flagged (the empirical entropy of any 20-character run is
at most log2 20, so no such run can exceed the 4.5 threshold). -/
theorem C8_twenty_char_run_not_flagged :
    str20.length = 20 ∧ (∀ c ∈ str20, c ∈ B64chars) ∧
    str20 ∈ FindValidStrings str20 B64chars ∧
    ¬ entropyHit str20 B64chars b64Threshold str20 := by
  refine ⟨rfl, by decide, by decide, ?_⟩
  rintro ⟨w, hw, hrun, hent⟩
  have hE : shannonEntropy str20 = Real.logb 2 20 := by
    have h := shannonEntropy_nodup str20 (by decide) (by decide)
    rw [h, show str20.length = 20 from rfl]
    norm_num
  rw [hE] at hent
  simp only [b64Threshold] at hent
  have := logb_two_twenty_lt
  linarith

/-- C8 as amended: the entropy detector flags an extracted run exactly when its Shannon
entropy exceeds the kind-specific threshold — 4.5 for the 64-character alphabet and 3.0
for hexadecimal; a uniformly random base64 run long enough for its entropy to exceed
4.5 is flagged, for instance the run of 32 distinct base64 characters with entropy
log2 32 = 5 > 4.5; and a run of 20 repeated identical characters (entropy 0) is never
flagged, for either alphabet. -/
theorem C8_amended_entropy_thresholds :
    (∀ diff charset t run, entropyHit diff charset t run ↔
      ∃ w ∈ fields diff, run ∈ FindValidStrings w charset ∧ t < shannonEntropy run) ∧
    entropyHit str32 B64chars b64Threshold str32 ∧
    ¬ entropyHit (List.replicate 20 'a') B64chars b64Threshold (List.replicate 20 'a') ∧
    ¬ entropyHit (List.replicate 20 'a') Hexchars hexThreshold (List.replicate 20 'a') := by
  refine ⟨fun _ _ _ _ => Iff.rfl, ?_, ?_, ?_⟩
  · refine ⟨str32, by decide, by decide, ?_⟩
    have hE : shannonEntropy str32 = Real.logb 2 32 := by
      have h := shannonEntropy_nodup str32 (by decide) (by decide)
      rw [h, show str32.length = 32 from rfl]
      norm_num
    rw [hE, logb_two_thirtytwo]
    simp only [b64Threshold]
    norm_num
  · rintro ⟨w, hw, hrun, hent⟩
    rw [shannonEntropy_replicate 20 (by norm_num) 'a'] at hent
    simp only [b64Threshold] at hent
    norm_num at hent
  · rintro ⟨w, hw, hrun, hent⟩
    rw [shannonEntropy_replicate 20 (by norm_num) 'a'] at hent
    simp only [hexThreshold] at hent
    norm_num at hent

end Yar
